import Mathlib

/-!
Verification of the redis-rust server (src/src/main.rs) against its
natural-language specification.

Modelling conventions:
* Rust `String` payloads are modelled as their UTF-8 byte sequences
  (`List Nat`, each element a byte value).  `String::from_utf8_lossy`
  is the identity on buffers that came from a `String`, so it is
  modelled as the identity on byte lists.
* `usize` arithmetic is modelled as `Nat` with an explicit `% 2 ^ 64`
  where the source can wrap, and `i64` as `Int` with explicit
  wrap-around (`wrap64`) where the source can overflow.
* A Rust panic (slice out of bounds, arithmetic overflow in debug
  builds, `Vec::with_capacity` capacity overflow) is modelled by the
  distinguished result `crash`.
* The wall clock (`current_time_ms`) is passed to each store operation
  as an explicit `now : Nat` parameter.
-/

/-- Byte sequence (UTF-8) of a Lean string literal; used to write the
byte-list payloads of the model readably. -/
def strBytes (s : String) : List Nat := s.toList.map Char.toNat

/-- ASCII upper-casing of a byte list.  Models Rust `str::to_uppercase`
on the ASCII strings that appear in the command dispatcher. -/
def upperAscii (l : List Nat) : List Nat :=
  l.map (fun b => if 97 ≤ b ∧ b ≤ 122 then b - 32 else b)

/-- Decimal digits (as bytes) of a natural number, most significant
first.  Models Rust `to_string` on unsigned values. -/
def natToDigits (n : Nat) : List Nat :=
  if n < 10 then [48 + n] else natToDigits (n / 10) ++ [48 + n % 10]
  termination_by n
  decreasing_by
    simp only [not_lt] at *
    omega

/-- Decimal byte representation of an `i64`, sign included.  Models
Rust `i64::to_string`. -/
def i64ToBytes (n : Int) : List Nat :=
  if n < 0 then 45 :: natToDigits n.natAbs else natToDigits n.toNat

/-- Every element of the list is an ASCII decimal digit. -/
def allDigits (l : List Nat) : Bool := l.all (fun b => 48 ≤ b && b ≤ 57)

/-- Value of a list of ASCII decimal digit bytes. -/
def digitsVal (l : List Nat) : Nat := l.foldl (fun acc b => acc * 10 + (b - 48)) 0

/-- Models Rust `str::parse::<i64>`: optional sign, one or more ASCII
digits, result must fit in a signed 64-bit integer. -/
def parse_i64 (s : List Nat) : Option Int :=
  match s with
  | [] => none
  | c :: rest =>
    if c = 45 then
      if rest ≠ [] ∧ allDigits rest = true ∧ digitsVal rest ≤ 2 ^ 63 then
        some (-(digitsVal rest : Int))
      else none
    else if c = 43 then
      if rest ≠ [] ∧ allDigits rest = true ∧ digitsVal rest ≤ 2 ^ 63 - 1 then
        some (digitsVal rest : Int)
      else none
    else
      if allDigits s = true ∧ digitsVal s ≤ 2 ^ 63 - 1 then
        some (digitsVal s : Int)
      else none

/-- Models Rust `str::parse::<u64>`: optional plus sign, one or more
ASCII digits, result must fit in an unsigned 64-bit integer. -/
def parse_u64 (s : List Nat) : Option Nat :=
  match s with
  | [] => none
  | c :: rest =>
    if c = 43 then
      if rest ≠ [] ∧ allDigits rest = true ∧ digitsVal rest ≤ 2 ^ 64 - 1 then
        some (digitsVal rest)
      else none
    else
      if allDigits s = true ∧ digitsVal s ≤ 2 ^ 64 - 1 then
        some (digitsVal s)
      else none

/-- Index of the first adjacent CR LF pair in a byte list (the scan of
`find_crlf` restated on the suffix being scanned). -/
def findPair : List Nat → Option Nat
  | a :: b :: rest =>
    if a = 13 ∧ b = 10 then some 0 else (findPair (b :: rest)).map (· + 1)
  | _ => none

/-- Models `find_crlf` (src/src/main.rs lines 442-449): scan indices
`start ≤ i < buffer.len() - 1` for `buffer[i] = CR` and
`buffer[i+1] = LF`. -/
def find_crlf (buffer : List Nat) (i : Nat) : Option Nat :=
  if i + 1 < buffer.length then
    if buffer.getD i 0 = 13 ∧ buffer.getD (i + 1) 0 = 10 then some i
    else find_crlf buffer (i + 1)
  else none
  termination_by buffer.length - i

/-- Models the Rust slice `&buffer[a..b]`. -/
def listSlice (l : List Nat) (a b : Nat) : List Nat := (l.take b).drop a

/-- The value of the Rust cast `len as usize` for an `i64` value. -/
def usizeOfI64 (n : Int) : Nat := (n % (2 : Int) ^ 64).toNat

/-- Signed 64-bit wrap-around (release-mode Rust integer overflow). -/
def wrap64 (n : Int) : Int := (n + 2 ^ 63) % 2 ^ 64 - 2 ^ 63

/-- Models the `RespData` frame type (src/src/main.rs lines 34-42).
String payloads are byte sequences. -/
inductive RespData where
  | simpleString (s : List Nat)
  | error (s : List Nat)
  | integer (n : Int)
  | bulkString (s : List Nat)
  | array (xs : List RespData)
  | null

/-- Outcome of a parse call.  The Rust signature is
`io::Result<Option<(usize, RespData)>>`: `ok` models
`Ok(Some((consumed, frame)))`, `incomplete` models `Ok(None)`,
`malformed` models `Err(..)`, and `crash` models a Rust panic. -/
inductive ParseResult where
  | ok (consumed : Nat) (frame : RespData)
  | incomplete
  | malformed (msg : String)
  | crash

/-- Outcome of the element loop inside `parse_array`; `okL` carries the
bytes consumed by the elements and the elements themselves. -/
inductive ParseResultL where
  | okL (consumed : Nat) (elems : List RespData)
  | incompleteL
  | malformedL (msg : String)
  | crashL

/-- Models `parse_simple_string` (src/src/main.rs lines 355-362). -/
def parse_simple_string (buffer : List Nat) : ParseResult :=
  match find_crlf buffer 1 with
  | some pos => .ok (pos + 2) (.simpleString (listSlice buffer 1 pos))
  | none => .incomplete

/-- Models `parse_error` (src/src/main.rs lines 364-371). -/
def parse_error (buffer : List Nat) : ParseResult :=
  match find_crlf buffer 1 with
  | some pos => .ok (pos + 2) (.error (listSlice buffer 1 pos))
  | none => .incomplete

/-- Models `parse_integer` (src/src/main.rs lines 373-383). -/
def parse_integer (buffer : List Nat) : ParseResult :=
  match find_crlf buffer 1 with
  | some pos =>
    match parse_i64 (listSlice buffer 1 pos) with
    | some num => .ok (pos + 2) (.integer num)
    | none => .malformed "Invalid integer"
  | none => .incomplete

/-- Models `parse_bulk_string` (src/src/main.rs lines 385-409).  The
source computes `str_end = str_start + len as usize` and
`total_end = str_end + 2` in `usize` arithmetic and then evaluates
`&buffer[str_start..str_end]`; for a negative `len` other than `-1`
the cast wraps around and the slice (or, in debug builds, the
addition itself) panics, modelled by `crash`. -/
def parse_bulk_string (buffer : List Nat) : ParseResult :=
  match find_crlf buffer 1 with
  | some pos =>
    match parse_i64 (listSlice buffer 1 pos) with
    | none => .malformed "Invalid bulk string length"
    | some len =>
      if len = -1 then .ok (pos + 2) .null
      else
        let str_start := pos + 2
        let str_end := (str_start + usizeOfI64 len) % 2 ^ 64
        let total_end := (str_end + 2) % 2 ^ 64
        if total_end ≤ buffer.length then
          if str_start ≤ str_end ∧ str_end ≤ buffer.length then
            .ok total_end (.bulkString (listSlice buffer str_start str_end))
          else .crash
        else .incomplete
  | none => .incomplete

/-- The scan of `find_crlf` only reports positions strictly inside the
buffer, one byte before its end at the latest. -/
theorem find_crlf_lt (buffer : List Nat) (i pos : Nat)
    (h : find_crlf buffer i = some pos) : i ≤ pos ∧ pos + 1 < buffer.length := by
  unfold find_crlf at h
  split at h
  · split at h
    · cases h
      omega
    · have ih := find_crlf_lt buffer (i + 1) pos h
      omega
  · cases h
  termination_by buffer.length - i

mutual

/-- Models `parse_resp` (src/src/main.rs lines 340-353): dispatch on
the tag byte (`+` 43, `-` 45, `:` 58, `$` 36, `*` 42). -/
def parse_resp (buffer : List Nat) : ParseResult :=
  match buffer with
  | [] => .incomplete
  | b :: bs =>
    if b = 43 then parse_simple_string (b :: bs)
    else if b = 45 then parse_error (b :: bs)
    else if b = 58 then parse_integer (b :: bs)
    else if b = 36 then parse_bulk_string (b :: bs)
    else if b = 42 then parse_array (b :: bs)
    else .malformed "Invalid RESP data type"
  termination_by (buffer.length, 1)

/-- Models `parse_array` (src/src/main.rs lines 411-440).  For a
negative count other than `-1` the source calls
`Vec::with_capacity(len as usize)` on a wrapped-around huge value,
which panics (capacity overflow), modelled by `crash`. -/
def parse_array (buffer : List Nat) : ParseResult :=
  match h : find_crlf buffer 1 with
  | none => .incomplete
  | some pos =>
    match parse_i64 (listSlice buffer 1 pos) with
    | none => .malformed "Invalid array length"
    | some len =>
      if len = -1 then .ok (pos + 2) .null
      else if len < 0 then .crash
      else
        match parse_elems (buffer.drop (pos + 2)) len.toNat with
        | .okL consumed elems => .ok (pos + 2 + consumed) (.array elems)
        | .incompleteL => .incomplete
        | .malformedL m => .malformed m
        | .crashL => .crash
  termination_by (buffer.length, 0)
  decreasing_by
    have hlt := find_crlf_lt buffer 1 pos h
    apply Prod.Lex.left
    simp only [List.length_drop]
    omega

/-- The element loop of `parse_array` (src/src/main.rs lines 425-434):
each iteration parses one frame from the not-yet-consumed suffix of
the buffer (the source materialises that suffix as `temp_buffer` and
adds the consumed count to `current_pos`; here the suffix is carried
directly and the consumed counts are summed). -/
def parse_elems (rest : List Nat) (remaining : Nat) : ParseResultL :=
  match remaining with
  | 0 => .okL 0 []
  | r + 1 =>
    match parse_resp rest with
    | .ok consumed elem =>
      match parse_elems (rest.drop consumed) r with
      | .okL c2 elems => .okL (consumed + c2) (elem :: elems)
      | .incompleteL => .incompleteL
      | .malformedL m => .malformedL m
      | .crashL => .crashL
    | .incomplete => .incompleteL
    | .malformed m => .malformedL m
    | .crash => .crashL
  termination_by (rest.length, 2 + remaining)
  decreasing_by
    · apply Prod.Lex.right
      omega
    · have hle : (List.drop consumed rest).length ≤ rest.length := by
        simp only [List.length_drop]
        omega
      rcases lt_or_eq_of_le hle with hlt | heq
      · exact Prod.Lex.left _ _ hlt
      · rw [heq]
        exact Prod.Lex.right _ (by omega)

end

mutual

/-- Models `serialize_resp` (src/src/main.rs lines 451-489). -/
def serialize_resp : RespData → List Nat
  | .simpleString s => 43 :: (s ++ [13, 10])
  | .error s => 45 :: (s ++ [13, 10])
  | .integer n => 58 :: (i64ToBytes n ++ [13, 10])
  | .bulkString s => 36 :: (natToDigits s.length ++ [13, 10] ++ (s ++ [13, 10]))
  | .array xs => 42 :: (natToDigits xs.length ++ [13, 10] ++ serializeList xs)
  | .null => [36, 45, 49, 13, 10]

/-- Serialization of the elements of an array, depth first, in order
(the loop at src/src/main.rs lines 480-482). -/
def serializeList : List RespData → List Nat
  | [] => []
  | x :: xs => serialize_resp x ++ serializeList xs

end

mutual

/-- Well-formed frames: the realizability constraints of the data
model in spec §3 (SimpleString and Error text carries no CR LF pair,
Integer is signed 64-bit, bulk lengths and array counts fit in the
signed 64-bit length header). -/
def wf : RespData → Bool
  | .simpleString s => (findPair s).isNone
  | .error s => (findPair s).isNone
  | .integer n => decide (-(2 ^ 63 : Int) ≤ n ∧ n < 2 ^ 63)
  | .bulkString s => decide (s.length < 2 ^ 63)
  | .array xs => decide (xs.length < 2 ^ 63) && wfList xs
  | .null => true

/-- All frames of the list are well formed. -/
def wfList : List RespData → Bool
  | [] => true
  | x :: xs => wf x && wfList xs

end

/-- Models `RedisValueType` (src/src/main.rs lines 21-26).  `string`
holds UTF-8 bytes, `list` models the `VecDeque<String>` front first,
`integer` the `i64` payload. -/
inductive RedisValueType where
  | string (s : List Nat)
  | list (l : List (List Nat))
  | integer (n : Int)
  deriving DecidableEq

/-- Models `RedisValue` (src/src/main.rs lines 28-32). -/
structure RedisValue where
  data : RedisValueType
  expiry : Option Nat
  deriving DecidableEq

/-- Models `SetOptions` (src/src/main.rs lines 44-50). -/
inductive SetOptions where
  | none
  | EX (seconds : Nat)
  | PX (millis : Nat)
  | EXAT (timestamp : Nat)
  | PXAT (timestamp : Nat)

/-- The keyspace of `RedisStore` (the `DashMap<String, RedisValue>`
field), modelled as a partial map from key bytes to values. -/
def Store := List Nat → Option RedisValue

/-- Models `DashMap::insert`: map the key to the new value. -/
def Store.insert (st : Store) (k : List Nat) (v : RedisValue) : Store :=
  fun k2 => if k2 = k then some v else st k2

/-- Models `DashMap::remove`: unmap the key. -/
def Store.remove (st : Store) (k : List Nat) : Store :=
  fun k2 => if k2 = k then none else st k2

/-- The store holding no keys. -/
def Store.empty : Store := fun _ => none

/-- Models `RedisStore::get` (src/src/main.rs lines 67-80): lazy
expiry, removing the physical entry when `now ≥ expiry` and reporting
absence.  Returns the observation together with the possibly mutated
store. -/
def RedisStore.get (st : Store) (now : Nat) (key : List Nat) :
    Option RedisValue × Store :=
  match st key with
  | some entry =>
    match entry.expiry with
    | some expiry =>
      if now ≥ expiry then (none, st.remove key) else (some entry, st)
    | none => (some entry, st)
  | none => (none, st)

/-- Models `RedisStore::set_with_options` (src/src/main.rs lines
82-92): normalize the TTL specification to an absolute millisecond
deadline and insert.  The deadline arithmetic
(`current_time_ms() + seconds * 1000` and so on) is `u64` arithmetic
in the source, so it wraps around in release builds (debug builds
panic) for large enough operands; the wrap is modelled by the
explicit `% 2 ^ 64`.  `PXAT` stores its `u64` operand unchanged. -/
def RedisStore.set_with_options (st : Store) (now : Nat) (key : List Nat)
    (value : RedisValueType) (options : SetOptions) : Store :=
  let expiry : Option Nat :=
    match options with
    | .none => Option.none
    | .EX seconds => some ((now + seconds * 1000) % 2 ^ 64)
    | .PX millis => some ((now + millis) % 2 ^ 64)
    | .EXAT timestamp => some ((timestamp * 1000) % 2 ^ 64)
    | .PXAT timestamp => some timestamp
  st.insert key ⟨value, expiry⟩

/-- Models `RedisStore::incr` (src/src/main.rs lines 112-153).  The
source `loop` runs exactly once (every arm returns).  The addition
`n + 1` on `i64` wraps around in release builds, modelled by
`wrap64`. -/
def RedisStore.incr (st : Store) (now : Nat) (key : List Nat) :
    Except (List Nat) Int × Store :=
  match RedisStore.get st now key with
  | (some value, st1) =>
    match value.data with
    | .integer n =>
      let new_value := wrap64 (n + 1)
      (.ok new_value,
        RedisStore.set_with_options st1 now key (.integer new_value) .none)
    | .string s =>
      match parse_i64 s with
      | some n =>
        let new_value := wrap64 (n + 1)
        (.ok new_value,
          RedisStore.set_with_options st1 now key (.integer new_value) .none)
      | none => (.error (strBytes "value is not an integer"), st1)
    | .list _ => (.error (strBytes "value is not an integer"), st1)
  | (none, st1) =>
    (.ok 1, RedisStore.set_with_options st1 now key (.integer 1) .none)

/-- Models `RedisStore::decr` (src/src/main.rs lines 155-196). -/
def RedisStore.decr (st : Store) (now : Nat) (key : List Nat) :
    Except (List Nat) Int × Store :=
  match RedisStore.get st now key with
  | (some value, st1) =>
    match value.data with
    | .integer n =>
      let new_value := wrap64 (n - 1)
      (.ok new_value,
        RedisStore.set_with_options st1 now key (.integer new_value) .none)
    | .string s =>
      match parse_i64 s with
      | some n =>
        let new_value := wrap64 (n - 1)
        (.ok new_value,
          RedisStore.set_with_options st1 now key (.integer new_value) .none)
      | none => (.error (strBytes "value is not an integer"), st1)
    | .list _ => (.error (strBytes "value is not an integer"), st1)
  | (none, st1) =>
    (.ok (-1), RedisStore.set_with_options st1 now key (.integer (-1)) .none)

/-- The push loop of `lpush` (src/src/main.rs lines 204-206, 216-218,
230-232): `for v in values.iter().rev() { list.push_front(v) }`. -/
def lpushLoop (values : List (List Nat)) (l : List (List Nat)) : List (List Nat) :=
  values.reverse.foldl (fun acc v => v :: acc) l

/-- The push loop of `rpush` (src/src/main.rs lines 250-252, 262-264,
276-278): `for v in values { list.push_back(v) }`. -/
def rpushLoop (values : List (List Nat)) (l : List (List Nat)) : List (List Nat) :=
  values.foldl (fun acc v => acc ++ [v]) l

/-- Models `RedisStore::lpush` (src/src/main.rs lines 198-242).  On a
key holding a non-list value the source builds a fresh list from the
pushed values and replaces the stored value with it. -/
def RedisStore.lpush (st : Store) (now : Nat) (key : List Nat)
    (values : List (List Nat)) : Nat × Store :=
  match RedisStore.get st now key with
  | (some value, st1) =>
    match value.data with
    | .list l =>
      let l2 := lpushLoop values l
      (l2.length, RedisStore.set_with_options st1 now key (.list l2) .none)
    | _ =>
      let l2 := lpushLoop values []
      (l2.length, RedisStore.set_with_options st1 now key (.list l2) .none)
  | (none, st1) =>
    let l2 := lpushLoop values []
    (l2.length, RedisStore.set_with_options st1 now key (.list l2) .none)

/-- Models `RedisStore::rpush` (src/src/main.rs lines 244-288). -/
def RedisStore.rpush (st : Store) (now : Nat) (key : List Nat)
    (values : List (List Nat)) : Nat × Store :=
  match RedisStore.get st now key with
  | (some value, st1) =>
    match value.data with
    | .list l =>
      let l2 := rpushLoop values l
      (l2.length, RedisStore.set_with_options st1 now key (.list l2) .none)
    | _ =>
      let l2 := rpushLoop values []
      (l2.length, RedisStore.set_with_options st1 now key (.list l2) .none)
  | (none, st1) =>
    let l2 := rpushLoop values []
    (l2.length, RedisStore.set_with_options st1 now key (.list l2) .none)

/-- The SET modifier loop of `handle_command` (src/src/main.rs lines
515-538): `for i in (3..array.len()).step_by(2)` updating `options`
when the token at `i` upper-cases to `EX` or `PX` and the token at
`i + 1` parses as `u64`; every other token leaves `options`
unchanged. -/
def setOptionsLoop (array : List RespData) (i : Nat) (options : SetOptions) :
    SetOptions :=
  if i < array.length then
    let options2 :=
      match array.get? i with
      | some (.bulkString opt) =>
        if upperAscii opt = strBytes "EX" then
          match array.get? (i + 1) with
          | some (.bulkString secs) =>
            match parse_u64 secs with
            | some seconds => SetOptions.EX seconds
            | Option.none => options
          | _ => options
        else if upperAscii opt = strBytes "PX" then
          match array.get? (i + 1) with
          | some (.bulkString ms) =>
            match parse_u64 ms with
            | some millis => SetOptions.PX millis
            | Option.none => options
          | _ => options
        else options
      | _ => options
    setOptionsLoop array (i + 2) options2
  else options
  termination_by array.length - i

/-- Models the `SET` arm of `handle_command` (src/src/main.rs lines
506-545): arity check, key and value extraction, the modifier loop,
then `set_with_options` and an `OK` reply. -/
def handle_set (array : List RespData) (st : Store) (now : Nat) :
    RespData × Store :=
  if array.length < 3 then
    (.error (strBytes "ERR wrong number of arguments for 'set' command"), st)
  else
    match array.get? 1, array.get? 2 with
    | some (.bulkString key), some (.bulkString value) =>
      let options :=
        if array.length > 3 then setOptionsLoop array 3 .none else .none
      (.simpleString (strBytes "OK"),
        RedisStore.set_with_options st now key (.string value) options)
    | _, _ => (.error (strBytes "ERR invalid arguments for 'set' command"), st)

/-- The first atomic step of `RedisStore::incr`: the `self.get(key)`
call (src/src/main.rs line 114).  The sharded map makes this step
atomic on its own, but no lock is held afterwards. -/
def incrRead (st : Store) (now : Nat) (key : List Nat) :
    Option RedisValue × Store :=
  RedisStore.get st now key

/-- The second atomic step of `RedisStore::incr`: the arm chosen from
the observed read and its `self.set_with_options(..)` call
(src/src/main.rs lines 115-151), performed against whatever store is
current at that moment. -/
def incrWrite (st : Store) (now : Nat) (key : List Nat)
    (observed : Option RedisValue) : Except (List Nat) Int × Store :=
  match observed with
  | some value =>
    match value.data with
    | .integer n =>
      let new_value := wrap64 (n + 1)
      (.ok new_value,
        RedisStore.set_with_options st now key (.integer new_value) .none)
    | .string s =>
      match parse_i64 s with
      | some n =>
        let new_value := wrap64 (n + 1)
        (.ok new_value,
          RedisStore.set_with_options st now key (.integer new_value) .none)
      | none => (.error (strBytes "value is not an integer"), st)
    | .list _ => (.error (strBytes "value is not an integer"), st)
  | none =>
    (.ok 1, RedisStore.set_with_options st now key (.integer 1) .none)

theorem findPair_nil : findPair [] = none := rfl

theorem findPair_single (a : Nat) : findPair [a] = none := rfl

theorem findPair_cons2 (a b : Nat) (rest : List Nat) :
    findPair (a :: b :: rest) =
      if a = 13 ∧ b = 10 then some 0 else (findPair (b :: rest)).map (· + 1) := rfl

/-- A CR LF free list followed by CR LF: the first pair sits exactly at
the end of the prefix. -/
theorem findPair_append_crlf (s : List Nat) (t : List Nat)
    (h : findPair s = none) :
    findPair (s ++ 13 :: 10 :: t) = some s.length := by
  induction s with
  | nil => simp [findPair_cons2]
  | cons a s2 ih =>
    cases s2 with
    | nil => simp [findPair_cons2]
    | cons b s3 =>
      rw [findPair_cons2] at h
      by_cases hab : a = 13 ∧ b = 10
      · rw [if_pos hab] at h
        cases h
      · rw [if_neg hab] at h
        have h2 : findPair (b :: s3) = none := by
          cases heq : findPair (b :: s3) with
          | none => rfl
          | some v => rw [heq] at h; simp at h
        have ih2 := ih h2
        simp only [List.cons_append] at ih2 ⊢
        rw [findPair_cons2, if_neg hab, ih2]
        simp [List.length_cons]

/-- CR LF freedom is inherited by prefixes. -/
theorem findPair_take (s : List Nat) (i : Nat) (h : findPair s = none) :
    findPair (s.take i) = none := by
  induction s generalizing i with
  | nil => simp [findPair_nil]
  | cons a s2 ih =>
    cases i with
    | zero => simp [findPair_nil]
    | succ j =>
      cases s2 with
      | nil =>
        cases j <;> simp [findPair_nil, findPair_single]
      | cons b s3 =>
        rw [findPair_cons2] at h
        by_cases hab : a = 13 ∧ b = 10
        · rw [if_pos hab] at h
          cases h
        · rw [if_neg hab] at h
          have h2 : findPair (b :: s3) = none := by
            cases heq : findPair (b :: s3) with
            | none => rfl
            | some v => rw [heq] at h; simp at h
          cases j with
          | zero => simp [findPair_single]
          | succ k =>
            have ih2 := ih (i := k + 1) h2
            simp only [List.take_succ_cons] at ih2 ⊢
            rw [findPair_cons2, if_neg hab, ih2]
            rfl

/-- Appending a lone CR to a CR LF free list keeps it CR LF free. -/
theorem findPair_append_cr (s : List Nat) (h : findPair s = none) :
    findPair (s ++ [13]) = none := by
  induction s with
  | nil => simp [findPair_single]
  | cons a s2 ih =>
    cases s2 with
    | nil => simp [findPair_cons2, findPair_single]
    | cons b s3 =>
      rw [findPair_cons2] at h
      by_cases hab : a = 13 ∧ b = 10
      · rw [if_pos hab] at h
        cases h
      · rw [if_neg hab] at h
        have h2 : findPair (b :: s3) = none := by
          cases heq : findPair (b :: s3) with
          | none => rfl
          | some v => rw [heq] at h; simp at h
        have ih2 := ih h2
        simp only [List.cons_append] at ih2 ⊢
        rw [findPair_cons2, if_neg hab, ih2]
        rfl

/-- A list without CR bytes is CR LF free. -/
theorem findPair_of_no13 (l : List Nat) (h : ∀ x ∈ l, x ≠ 13) :
    findPair l = none := by
  induction l with
  | nil => rfl
  | cons a l2 ih =>
    cases l2 with
    | nil => rfl
    | cons b l3 =>
      rw [findPair_cons2]
      have ha : a ≠ 13 := h a (by simp)
      rw [if_neg (by simp [ha])]
      rw [ih (fun x hx => h x (List.mem_cons_of_mem a hx))]
      rfl

/-- Two consecutive elements read off a drop. -/
theorem drop_two (l : List Nat) (i : Nat) (h : i + 1 < l.length) :
    l.drop i = l.getD i 0 :: l.getD (i + 1) 0 :: l.drop (i + 2) := by
  have h0 : i < l.length := by omega
  rw [List.drop_eq_getElem_cons h0, List.drop_eq_getElem_cons h,
    List.getD_eq_getElem l 0 h0, List.getD_eq_getElem l 0 h]

/-- The index scan of `find_crlf` agrees with the structural scan
`findPair` of the suffix it walks. -/
theorem find_crlf_eq (buffer : List Nat) (i : Nat) :
    find_crlf buffer i = (findPair (buffer.drop i)).map (· + i) := by
  unfold find_crlf
  split
  · rename_i h
    rw [drop_two buffer i h]
    split
    · rename_i hcr
      rw [findPair_cons2, if_pos hcr]
      simp
    · rename_i hcr
      rw [find_crlf_eq buffer (i + 1)]
      rw [findPair_cons2, if_neg hcr]
      have hdrop1 : buffer.drop (i + 1) =
          buffer.getD (i + 1) 0 :: buffer.drop (i + 2) := by
        have h1 : i + 1 < buffer.length := h
        rw [List.drop_eq_getElem_cons h1, List.getD_eq_getElem buffer 0 h1]
      rw [hdrop1]
      cases findPair (buffer.getD (i + 1) 0 :: buffer.drop (i + 2)) with
      | none => rfl
      | some v =>
        simp [Option.map]
        omega
  · rename_i h
    match h2 : buffer.drop i with
    | [] => rfl
    | [a] => rfl
    | a :: b :: r =>
      have : (buffer.drop i).length = buffer.length - i := List.length_drop i buffer
      rw [h2] at this
      simp at this
      omega
  termination_by buffer.length - i

/-- Specialisation used by every parse function: the scan from index 1
of a tagged buffer. -/
theorem find_crlf_cons (b : Nat) (rest : List Nat) :
    find_crlf (b :: rest) 1 = (findPair rest).map (· + 1) := by
  rw [find_crlf_eq]
  rfl

/-- Every byte emitted by `natToDigits` is an ASCII decimal digit. -/
theorem natToDigits_mem (n b : Nat) (h : b ∈ natToDigits n) :
    48 ≤ b ∧ b ≤ 57 := by
  unfold natToDigits at h
  split at h
  · rename_i hlt
    simp at h
    omega
  · rename_i hge
    rcases List.mem_append.mp h with h2 | h2
    · exact natToDigits_mem (n / 10) b h2
    · simp at h2
      have : n % 10 < 10 := Nat.mod_lt n (by omega)
      omega
  termination_by n

theorem natToDigits_ne_nil (n : Nat) : natToDigits n ≠ [] := by
  unfold natToDigits
  split
  · simp
  · simp

theorem allDigits_natToDigits (n : Nat) : allDigits (natToDigits n) = true := by
  unfold allDigits
  rw [List.all_eq_true]
  intro b hb
  have := natToDigits_mem n b hb
  simp
  omega

theorem digitsVal_append_one (l : List Nat) (b : Nat) :
    digitsVal (l ++ [b]) = digitsVal l * 10 + (b - 48) := by
  unfold digitsVal
  rw [List.foldl_append]
  rfl

theorem digitsVal_natToDigits (n : Nat) : digitsVal (natToDigits n) = n := by
  unfold natToDigits
  split
  · rename_i hlt
    unfold digitsVal
    simp
  · rename_i hge
    rw [digitsVal_append_one, digitsVal_natToDigits (n / 10)]
    omega
  termination_by n

theorem natToDigits_length_le (n : Nat) : (natToDigits n).length ≤ n + 1 := by
  unfold natToDigits
  split
  · simp
  · rename_i hge
    simp only [not_lt] at hge
    rw [List.length_append]
    have ih := natToDigits_length_le (n / 10)
    simp only [List.length_singleton]
    omega
  termination_by n

/-- Digit-count bound: a number below `10 ^ (k + 1)` has at most
`k + 1` decimal digits. -/
theorem natToDigits_length_le_pow (k : Nat) (n : Nat) (h : n < 10 ^ (k + 1)) :
    (natToDigits n).length ≤ k + 1 := by
  induction k generalizing n with
  | zero =>
    unfold natToDigits
    rw [if_pos (by omega)]
    simp
  | succ k ih =>
    unfold natToDigits
    split
    · simp
    · rw [List.length_append]
      have hdiv : n / 10 < 10 ^ (k + 1) := by
        have : 10 ^ (k + 1 + 1) = 10 ^ (k + 1) * 10 := by ring
        omega
      have := ih (n / 10) hdiv
      simp only [List.length_singleton]
      omega

theorem findPair_natToDigits (n : Nat) : findPair (natToDigits n) = none := by
  apply findPair_of_no13
  intro x hx
  have := natToDigits_mem n x hx
  omega

theorem findPair_i64ToBytes (n : Int) : findPair (i64ToBytes n) = none := by
  unfold i64ToBytes
  split
  · apply findPair_of_no13
    intro x hx
    rcases List.mem_cons.mp hx with h | h
    · omega
    · have := natToDigits_mem n.natAbs x h
      omega
  · exact findPair_natToDigits n.toNat

/-- Parsing the decimal representation of an in-range natural as an
`i64` recovers it. -/
theorem parse_i64_natToDigits (n : Nat) (h : n ≤ 2 ^ 63 - 1) :
    parse_i64 (natToDigits n) = some (n : Int) := by
  have hne := natToDigits_ne_nil n
  match hnd : natToDigits n with
  | [] => exact absurd hnd hne
  | c :: rest =>
    have hc : 48 ≤ c ∧ c ≤ 57 := natToDigits_mem n c (by rw [hnd]; simp)
    have hall : allDigits (c :: rest) = true := by rw [← hnd]; exact allDigits_natToDigits n
    have hval : digitsVal (c :: rest) = n := by rw [← hnd]; exact digitsVal_natToDigits n
    have hc45 : ¬(c = 45) := by omega
    have hc43 : ¬(c = 43) := by omega
    simp only [parse_i64]
    rw [if_neg hc45, if_neg hc43, if_pos ⟨hall, by omega⟩, hval]

/-- Parsing a minus sign followed by the decimal representation of an
in-range natural yields its negation. -/
theorem parse_i64_neg_natToDigits (m : Nat) (h : m ≤ 2 ^ 63) :
    parse_i64 (45 :: natToDigits m) = some (-(m : Int)) := by
  have hne := natToDigits_ne_nil m
  have hall := allDigits_natToDigits m
  have hval := digitsVal_natToDigits m
  simp only [parse_i64]
  rw [if_pos trivial, if_pos ⟨hne, hall, by omega⟩, hval]

/-- Round trip of the `i64` decimal representation through
`str::parse::<i64>` for in-range values. -/
theorem parse_i64_i64ToBytes (n : Int) (h1 : -(2 ^ 63) ≤ n) (h2 : n < 2 ^ 63) :
    parse_i64 (i64ToBytes n) = some n := by
  unfold i64ToBytes
  split
  · rename_i hneg
    rw [parse_i64_neg_natToDigits n.natAbs (by omega)]
    congr 1
    omega
  · rename_i hnn
    rw [parse_i64_natToDigits n.toNat (by omega)]
    congr 1
    omega

/-- Slicing out the middle component of a three-part concatenation. -/
theorem listSlice_append (pre mid post : List Nat) :
    listSlice (pre ++ mid ++ post) pre.length (pre.length + mid.length) = mid := by
  unfold listSlice
  have h1 : (pre ++ mid ++ post).take (pre.length + mid.length) = pre ++ mid := by
    have := List.take_left (pre ++ mid) post
    rwa [List.length_append] at this
  rw [h1]
  exact List.drop_left pre mid

/-- The serialization of any frame is nonempty. -/
theorem serialize_length_pos (F : RespData) : 1 ≤ (serialize_resp F).length := by
  cases F <;> simp [serialize_resp]

/-- Slicing the middle part out of a tagged buffer. -/
theorem listSlice_mid (b : Nat) (u mid post : List Nat) :
    listSlice (b :: (u ++ (mid ++ post))) (u.length + 1) (u.length + 1 + mid.length) = mid := by
  have h := listSlice_append (b :: u) mid post
  simp only [List.cons_append, List.length_cons, List.append_assoc] at h
  exact h

/-- Dropping the prefix of a tagged buffer. -/
theorem drop_tagged (b : Nat) (u rest : List Nat) :
    (b :: (u ++ rest)).drop (u.length + 1) = rest := by
  have h := List.drop_left (b :: u) rest
  simp only [List.cons_append, List.length_cons] at h
  exact h


/-- Slicing positions `1..mid.length + 1` out of a tagged buffer whose
body starts with `mid`. -/
theorem listSlice_one (b : Nat) (mid post : List Nat) :
    listSlice (b :: (mid ++ post)) 1 (mid.length + 1) = mid := by
  have h2 := listSlice_mid b [] mid post
  simp only [List.nil_append, List.length_nil, Nat.zero_add] at h2
  rw [Nat.add_comm 1 mid.length] at h2
  exact h2

/-- A complete simple-string frame followed by arbitrary trailing
bytes parses to its body, consuming exactly the frame bytes. -/
theorem parse_simple_string_eq (b : Nat) (s t : List Nat) (h : findPair s = none) :
    parse_simple_string (b :: (s ++ 13 :: 10 :: t)) =
      .ok (s.length + 3) (.simpleString s) := by
  unfold parse_simple_string
  rw [find_crlf_cons, findPair_append_crlf s t h]
  simp only [Option.map_some']
  rw [listSlice_one b s (13 :: 10 :: t)]

/-- A complete error frame followed by trailing bytes parses to its
body. -/
theorem parse_error_eq (b : Nat) (s t : List Nat) (h : findPair s = none) :
    parse_error (b :: (s ++ 13 :: 10 :: t)) = .ok (s.length + 3) (.error s) := by
  unfold parse_error
  rw [find_crlf_cons, findPair_append_crlf s t h]
  simp only [Option.map_some']
  rw [listSlice_one b s (13 :: 10 :: t)]

/-- A complete integer frame followed by trailing bytes parses to its
value. -/
theorem parse_integer_eq (b : Nat) (n : Int) (t : List Nat)
    (h1 : -(2 ^ 63) ≤ n) (h2 : n < 2 ^ 63) :
    parse_integer (b :: (i64ToBytes n ++ 13 :: 10 :: t)) =
      .ok ((i64ToBytes n).length + 3) (.integer n) := by
  unfold parse_integer
  rw [find_crlf_cons, findPair_append_crlf (i64ToBytes n) t (findPair_i64ToBytes n)]
  simp only [Option.map_some']
  rw [listSlice_one b (i64ToBytes n) (13 :: 10 :: t)]
  rw [parse_i64_i64ToBytes n h1 h2]

/-- A complete bulk-string frame followed by trailing bytes parses to
its payload, consuming header, payload and terminator. -/
theorem parse_bulk_string_eq (s t : List Nat) (h : s.length < 2 ^ 63) :
    parse_bulk_string
        (36 :: (natToDigits s.length ++ (13 :: 10 :: (s ++ 13 :: 10 :: t)))) =
      .ok ((natToDigits s.length).length + 2 + s.length + 3) (.bulkString s) := by
  have hnd : findPair (natToDigits s.length) = none := findPair_natToDigits s.length
  have hlen : (natToDigits s.length).length ≤ 19 :=
    natToDigits_length_le_pow 18 s.length (by omega)
  unfold parse_bulk_string
  rw [find_crlf_cons, findPair_append_crlf (natToDigits s.length) _ hnd]
  simp only [Option.map_some']
  rw [listSlice_one 36 (natToDigits s.length) (13 :: 10 :: (s ++ 13 :: 10 :: t))]
  have hp64 : parse_i64 (natToDigits s.length) = some (s.length : Int) :=
    parse_i64_natToDigits s.length (by omega)
  simp only [hp64]
  rw [if_neg (by omega)]
  have husize : usizeOfI64 (s.length : Int) = s.length := by
    unfold usizeOfI64
    omega
  rw [husize]
  have hmod1 : (natToDigits s.length).length + 1 + 2 + s.length < 2 ^ 64 := by omega
  rw [Nat.mod_eq_of_lt hmod1, Nat.mod_eq_of_lt (by omega)]
  have hblen : (36 :: (natToDigits s.length ++ (13 :: 10 :: (s ++ 13 :: 10 :: t)))).length
      = (natToDigits s.length).length + 3 + s.length + 2 + t.length := by
    simp [List.length_append]
    omega
  rw [if_pos (by rw [hblen]; omega)]
  rw [if_pos (by constructor <;> [omega; (rw [hblen]; omega)])]
  have hslice : listSlice (36 :: (natToDigits s.length ++ (13 :: 10 :: (s ++ 13 :: 10 :: t))))
      ((natToDigits s.length).length + 1 + 2)
      ((natToDigits s.length).length + 1 + 2 + s.length) = s := by
    have h3 := listSlice_mid 36 (natToDigits s.length ++ [13, 10]) s (13 :: 10 :: t)
    simp only [List.append_assoc, List.cons_append, List.nil_append,
      List.length_append, List.length_cons, List.length_nil] at h3 ⊢
    have heq : (natToDigits s.length).length + 2 + 1 = (natToDigits s.length).length + 1 + 2 := by
      omega
    rw [heq] at h3
    exact h3
  rw [hslice]
  congr 1
  omega

/-- The serialized null frame (`$-1` CR LF) followed by trailing
bytes parses back to null, consuming five bytes. -/
theorem parse_bulk_null (t : List Nat) :
    parse_bulk_string (36 :: 45 :: 49 :: 13 :: 10 :: t) = .ok 5 .null := by
  have hfp : findPair (45 :: 49 :: 13 :: 10 :: t) = some 2 := by
    rw [findPair_cons2, if_neg (by omega), findPair_cons2, if_neg (by omega),
      findPair_cons2, if_pos ⟨rfl, rfl⟩]
    rfl
  unfold parse_bulk_string
  rw [find_crlf_cons, hfp]
  simp only [Option.map_some']
  have hslice : listSlice (36 :: 45 :: 49 :: 13 :: 10 :: t) 1 3 = [45, 49] := by
    have h3 := listSlice_one 36 [45, 49] (13 :: 10 :: t)
    simpa using h3
  rw [hslice]
  have hp : parse_i64 [45, 49] = some (-1) := by decide
  simp only [hp]
  norm_num

/-- Element loop correctness: a fully serialized element list followed
by trailing bytes parses back to the elements, consuming exactly the
serialized bytes.  The element property is supplied as a hypothesis so
the lemma can be used inside the structural induction on frames. -/
theorem parse_elems_ser (xs : List RespData)
    (hmem : ∀ x ∈ xs, wf x = true → ∀ t2 : List Nat,
      parse_resp (serialize_resp x ++ t2) = .ok (serialize_resp x).length x)
    (hwf : wfList xs = true) (t : List Nat) :
    parse_elems (serializeList xs ++ t) xs.length =
      .okL (serializeList xs).length xs := by
  induction xs with
  | nil =>
    simp [serializeList, parse_elems]
  | cons x xs ih =>
    have hwx : wf x = true ∧ wfList xs = true := by
      have h2 := hwf
      simp only [wfList, Bool.and_eq_true] at h2
      exact h2
    have hx := hmem x (by simp) hwx.1 (serializeList xs ++ t)
    have hbuf : serializeList (x :: xs) ++ t =
        serialize_resp x ++ (serializeList xs ++ t) := by
      simp [serializeList, List.append_assoc]
    rw [hbuf]
    show parse_elems _ (xs.length + 1) = _
    simp only [parse_elems]
    simp only [hx]
    rw [List.drop_left]
    simp only [ih (fun x2 hx2 => hmem x2 (List.mem_cons_of_mem x hx2)) hwx.2]
    simp [serializeList, List.length_append]

/-- Main codec lemma, size-bounded form: parsing a serialized
well-formed frame with arbitrary trailing bytes yields the frame back
and consumes exactly its serialization. -/
theorem parse_ser_tail_aux (n : Nat) : ∀ (F : RespData), sizeOf F ≤ n →
    wf F = true → ∀ t : List Nat,
    parse_resp (serialize_resp F ++ t) = .ok (serialize_resp F).length F := by
  induction n with
  | zero =>
    intro F hF
    exfalso
    cases F <;> simp at hF
  | succ n ih =>
    intro F hF hwf t
    cases F with
    | simpleString s =>
      have hs : findPair s = none := by
        simpa [wf, Option.isNone_iff_eq_none] using hwf
      have hser : serialize_resp (.simpleString s) ++ t = 43 :: (s ++ 13 :: 10 :: t) := by
        simp [serialize_resp]
      have hlen2 : (serialize_resp (.simpleString s)).length = s.length + 3 := by
        simp [serialize_resp]
      rw [hser, hlen2]
      simp only [parse_resp]
      norm_num
      exact parse_simple_string_eq 43 s t hs
    | error s =>
      have hs : findPair s = none := by
        simpa [wf, Option.isNone_iff_eq_none] using hwf
      have hser : serialize_resp (.error s) ++ t = 45 :: (s ++ 13 :: 10 :: t) := by
        simp [serialize_resp]
      have hlen2 : (serialize_resp (.error s)).length = s.length + 3 := by
        simp [serialize_resp]
      rw [hser, hlen2]
      simp only [parse_resp]
      norm_num
      exact parse_error_eq 45 s t hs
    | integer m =>
      have hrange : -(2 ^ 63 : Int) ≤ m ∧ m < 2 ^ 63 := by
        simpa [wf] using hwf
      have hser : serialize_resp (.integer m) ++ t =
          58 :: (i64ToBytes m ++ 13 :: 10 :: t) := by
        simp [serialize_resp]
      have hlen2 : (serialize_resp (.integer m)).length = (i64ToBytes m).length + 3 := by
        simp [serialize_resp]
      rw [hser, hlen2]
      simp only [parse_resp]
      norm_num
      exact parse_integer_eq 58 m t hrange.1 hrange.2
    | bulkString s =>
      have hrange : s.length < 2 ^ 63 := by
        simpa [wf] using hwf
      have hser : serialize_resp (.bulkString s) ++ t =
          36 :: (natToDigits s.length ++ (13 :: 10 :: (s ++ 13 :: 10 :: t))) := by
        simp [serialize_resp, List.append_assoc]
      have hlen2 : (serialize_resp (.bulkString s)).length =
          (natToDigits s.length).length + 2 + s.length + 3 := by
        simp [serialize_resp, List.length_append]
        omega
      rw [hser, hlen2]
      simp only [parse_resp]
      norm_num
      exact parse_bulk_string_eq s t hrange
    | null =>
      have hser : serialize_resp .null ++ t = 36 :: 45 :: 49 :: 13 :: 10 :: t := by
        simp [serialize_resp]
      have hlen2 : (serialize_resp .null).length = 5 := by
        simp [serialize_resp]
      rw [hser, hlen2]
      simp only [parse_resp]
      norm_num
      exact parse_bulk_null t
    | array xs =>
      have hwf2 : xs.length < 2 ^ 63 ∧ wfList xs = true := by
        have h2 := hwf
        simp only [wf, Bool.and_eq_true, decide_eq_true_eq] at h2
        exact h2
      have hsize : sizeOf xs ≤ n := by
        have h3 : sizeOf (RespData.array xs) = 1 + sizeOf xs := by
          simp
        omega
      have hmem : ∀ x ∈ xs, wf x = true → ∀ t2 : List Nat,
          parse_resp (serialize_resp x ++ t2) = .ok (serialize_resp x).length x := by
        intro x hxmem hwx t2
        have h4 : sizeOf x < sizeOf xs := List.sizeOf_lt_of_mem hxmem
        exact ih x (by omega) hwx t2
      have hpe := parse_elems_ser xs hmem hwf2.2 t
      have hnd : findPair (natToDigits xs.length) = none := findPair_natToDigits xs.length
      have hser : serialize_resp (.array xs) ++ t =
          42 :: (natToDigits xs.length ++ (13 :: 10 :: (serializeList xs ++ t))) := by
        simp [serialize_resp, List.append_assoc]
      have hlen2 : (serialize_resp (.array xs)).length =
          (natToDigits xs.length).length + 1 + 2 + (serializeList xs).length := by
        simp [serialize_resp, List.length_append]
        omega
      rw [hser, hlen2]
      simp only [parse_resp]
      norm_num
      simp only [parse_array]
      rw [find_crlf_cons, findPair_append_crlf (natToDigits xs.length) _ hnd]
      simp only [Option.map_some']
      rw [listSlice_one 42 (natToDigits xs.length) (13 :: 10 :: (serializeList xs ++ t))]
      have hp64 : parse_i64 (natToDigits xs.length) = some (xs.length : Int) :=
        parse_i64_natToDigits xs.length (by omega)
      simp only [hp64]
      rw [if_neg (by omega), if_neg (by omega)]
      have htonat : (xs.length : Int).toNat = xs.length := by omega
      rw [htonat]
      have hdrop : (42 :: (natToDigits xs.length ++
          (13 :: 10 :: (serializeList xs ++ t)))).drop
          ((natToDigits xs.length).length + 1 + 2) = serializeList xs ++ t := by
        have h5 := drop_tagged 42 (natToDigits xs.length ++ [13, 10]) (serializeList xs ++ t)
        simp only [List.append_assoc, List.cons_append, List.nil_append,
          List.length_append, List.length_cons, List.length_nil] at h5 ⊢
        have heq2 : (natToDigits xs.length).length + 2 + 1 =
            (natToDigits xs.length).length + 1 + 2 := by omega
        rw [heq2] at h5
        exact h5
      rw [hdrop]
      simp only [hpe]

/-- Parsing a serialized well-formed frame with arbitrary trailing
bytes yields the frame and consumes exactly its serialization. -/
theorem parse_ser_tail (F : RespData) (hwf : wf F = true) (t : List Nat) :
    parse_resp (serialize_resp F ++ t) = .ok (serialize_resp F).length F :=
  parse_ser_tail_aux (sizeOf F) F le_rfl hwf t

/-- Every proper prefix of a line-structured frame body (text followed
by CR LF) is CR LF free. -/
theorem findPair_line_take (s : List Nat) (h : findPair s = none) (j : Nat)
    (hj : j < s.length + 2) : findPair ((s ++ [13, 10]).take j) = none := by
  rcases Nat.lt_or_ge j (s.length + 1) with hj1 | hj1
  · rw [List.take_append_of_le_length (by omega)]
    exact findPair_take s j h
  · have hj3 : j = s.length + 1 := by omega
    subst hj3
    have htk : (s ++ [13, 10]).take (s.length + 1) = s ++ [13] := by
      rw [List.take_append_eq_append_take, List.take_of_length_le (by omega)]
      have h13 : s.length + 1 - s.length = 1 := by omega
      rw [h13]
      rfl
    rw [htk]
    exact findPair_append_cr s h

/-- Element loop incompleteness: every proper prefix of a serialized
element list makes the loop report `incompleteL`. -/
theorem parse_elems_take_incomplete (xs : List RespData)
    (hmem_take : ∀ x ∈ xs, wf x = true → ∀ i, i < (serialize_resp x).length →
      parse_resp ((serialize_resp x).take i) = .incomplete)
    (hwf : wfList xs = true) :
    ∀ i, i < (serializeList xs).length →
      parse_elems ((serializeList xs).take i) xs.length = .incompleteL := by
  induction xs with
  | nil =>
    intro i hi
    simp [serializeList] at hi
  | cons x xs ih =>
    intro i hi
    have hwx : wf x = true ∧ wfList xs = true := by
      have h2 := hwf
      simp only [wfList, Bool.and_eq_true] at h2
      exact h2
    have hi2 : i < (serialize_resp x).length + (serializeList xs).length := by
      simpa [serializeList, List.length_append] using hi
    rcases Nat.lt_or_ge i (serialize_resp x).length with hlt | hge
    · have htake : (serializeList (x :: xs)).take i = (serialize_resp x).take i := by
        simp only [serializeList]
        rw [List.take_append_of_le_length (by omega)]
      rw [htake]
      have hpx := hmem_take x (by simp) hwx.1 i hlt
      show parse_elems _ (xs.length + 1) = _
      simp only [parse_elems, hpx]
    · have htake : (serializeList (x :: xs)).take i =
          serialize_resp x ++ (serializeList xs).take (i - (serialize_resp x).length) := by
        simp only [serializeList]
        rw [List.take_append_eq_append_take, List.take_of_length_le (by omega)]
      rw [htake]
      have hfull := parse_ser_tail x hwx.1
        ((serializeList xs).take (i - (serialize_resp x).length))
      show parse_elems _ (xs.length + 1) = _
      simp only [parse_elems, hfull]
      rw [List.drop_left]
      have hih := ih (fun x2 hx2 => hmem_take x2 (List.mem_cons_of_mem x hx2)) hwx.2
        (i - (serialize_resp x).length) (by omega)
      simp only [hih]

/-- A bulk-string frame whose header is complete but whose payload and
terminator are not all present parses as incomplete. -/
theorem parse_bulk_body_incomplete (s rest : List Nat) (hs : s.length < 2 ^ 63)
    (hrest : rest.length < s.length + 2) :
    parse_bulk_string (36 :: (natToDigits s.length ++ (13 :: 10 :: rest))) =
      .incomplete := by
  have hnd : findPair (natToDigits s.length) = none := findPair_natToDigits s.length
  have hlen : (natToDigits s.length).length ≤ 19 :=
    natToDigits_length_le_pow 18 s.length (by omega)
  unfold parse_bulk_string
  rw [find_crlf_cons, findPair_append_crlf (natToDigits s.length) _ hnd]
  simp only [Option.map_some']
  rw [listSlice_one 36 (natToDigits s.length) (13 :: 10 :: rest)]
  have hp64 : parse_i64 (natToDigits s.length) = some (s.length : Int) :=
    parse_i64_natToDigits s.length (by omega)
  simp only [hp64]
  rw [if_neg (by omega)]
  have husize : usizeOfI64 (s.length : Int) = s.length := by
    unfold usizeOfI64
    omega
  rw [husize]
  have hmod1 : (natToDigits s.length).length + 1 + 2 + s.length < 2 ^ 64 := by omega
  rw [Nat.mod_eq_of_lt hmod1, Nat.mod_eq_of_lt (by omega)]
  have hblen : (36 :: (natToDigits s.length ++ (13 :: 10 :: rest))).length
      = (natToDigits s.length).length + 3 + rest.length := by
    simp [List.length_append]
    omega
  rw [if_neg (by rw [hblen]; omega)]

/-- Prefix incompleteness, size-bounded form: parsing any proper
prefix of a serialized well-formed frame reports `incomplete`. -/
theorem parse_take_incomplete_aux (n : Nat) : ∀ (F : RespData), sizeOf F ≤ n →
    wf F = true → ∀ i, i < (serialize_resp F).length →
    parse_resp ((serialize_resp F).take i) = .incomplete := by
  induction n with
  | zero =>
    intro F hF
    exfalso
    cases F <;> simp at hF
  | succ n ih =>
    intro F hF hwf i hi
    cases i with
    | zero =>
      simp [parse_resp]
    | succ j =>
      cases F with
      | simpleString s =>
        have hs : findPair s = none := by
          simpa [wf, Option.isNone_iff_eq_none] using hwf
        have hj : j < s.length + 2 := by
          have := hi
          simp [serialize_resp] at this
          omega
        have hfp := findPair_line_take s hs j hj
        simp only [serialize_resp, List.take_succ_cons]
        simp only [parse_resp]
        norm_num
        simp [parse_simple_string, find_crlf_cons, hfp]
      | error s =>
        have hs : findPair s = none := by
          simpa [wf, Option.isNone_iff_eq_none] using hwf
        have hj : j < s.length + 2 := by
          have := hi
          simp [serialize_resp] at this
          omega
        have hfp := findPair_line_take s hs j hj
        simp only [serialize_resp, List.take_succ_cons]
        simp only [parse_resp]
        norm_num
        simp [parse_error, find_crlf_cons, hfp]
      | integer m =>
        have hs : findPair (i64ToBytes m) = none := findPair_i64ToBytes m
        have hj : j < (i64ToBytes m).length + 2 := by
          have := hi
          simp [serialize_resp] at this
          omega
        have hfp := findPair_line_take (i64ToBytes m) hs j hj
        simp only [serialize_resp, List.take_succ_cons]
        simp only [parse_resp]
        norm_num
        simp [parse_integer, find_crlf_cons, hfp]
      | null =>
        have hj : j < 4 := by
          have := hi
          simp [serialize_resp] at this
          omega
        simp only [serialize_resp, List.take_succ_cons]
        simp only [parse_resp]
        norm_num
        interval_cases j <;>
          simp [parse_bulk_string, find_crlf_cons, findPair]
      | bulkString s =>
        have hrange : s.length < 2 ^ 63 := by
          simpa [wf] using hwf
        have hnd : findPair (natToDigits s.length) = none :=
          findPair_natToDigits s.length
        have hj : j < (natToDigits s.length).length + 2 + s.length + 2 := by
          have := hi
          simp [serialize_resp, List.length_append] at this
          omega
        simp only [serialize_resp, List.take_succ_cons]
        simp only [parse_resp]
        norm_num
        rw [show natToDigits s.length ++ 13 :: 10 :: (s ++ [13, 10]) =
          natToDigits s.length ++ [13, 10] ++ (s ++ [13, 10]) from by simp]
        rcases Nat.lt_or_ge j ((natToDigits s.length).length + 2) with hlt | hge
        · have htake : (natToDigits s.length ++ [13, 10] ++ (s ++ [13, 10])).take j =
              (natToDigits s.length ++ [13, 10]).take j := by
            rw [List.take_append_of_le_length (by simp [List.length_append]; omega)]
          rw [htake]
          have hfp := findPair_line_take (natToDigits s.length) hnd j hlt
          simp [parse_bulk_string, find_crlf_cons, hfp]
        · have htake : (natToDigits s.length ++ [13, 10] ++ (s ++ [13, 10])).take j =
              (natToDigits s.length ++ [13, 10]) ++
                (s ++ [13, 10]).take (j - ((natToDigits s.length).length + 2)) := by
            rw [List.take_append_eq_append_take,
              List.take_of_length_le (by simp [List.length_append]; omega)]
            congr 2
            simp [List.length_append]
          rw [htake]
          have hshape : (natToDigits s.length ++ [13, 10]) ++
                (s ++ [13, 10]).take (j - ((natToDigits s.length).length + 2)) =
              natToDigits s.length ++
                (13 :: 10 :: (s ++ [13, 10]).take (j - ((natToDigits s.length).length + 2))) := by
            simp [List.append_assoc]
          rw [hshape]
          apply parse_bulk_body_incomplete s _ hrange
          rw [List.length_take]
          simp [List.length_append]
          omega
      | array xs =>
        have hwf2 : xs.length < 2 ^ 63 ∧ wfList xs = true := by
          have h2 := hwf
          simp only [wf, Bool.and_eq_true, decide_eq_true_eq] at h2
          exact h2
        have hsize : sizeOf xs ≤ n := by
          have h3 : sizeOf (RespData.array xs) = 1 + sizeOf xs := by
            simp
          omega
        have hmem_take : ∀ x ∈ xs, wf x = true → ∀ i2, i2 < (serialize_resp x).length →
            parse_resp ((serialize_resp x).take i2) = .incomplete := by
          intro x hxmem hwx i2 hi2
          have h4 : sizeOf x < sizeOf xs := List.sizeOf_lt_of_mem hxmem
          exact ih x (by omega) hwx i2 hi2
        have hnd : findPair (natToDigits xs.length) = none :=
          findPair_natToDigits xs.length
        have hj : j < (natToDigits xs.length).length + 2 + (serializeList xs).length := by
          have := hi
          simp [serialize_resp, List.length_append] at this
          omega
        simp only [serialize_resp, List.take_succ_cons]
        simp only [parse_resp]
        norm_num
        rw [show natToDigits xs.length ++ 13 :: 10 :: serializeList xs =
          natToDigits xs.length ++ [13, 10] ++ serializeList xs from by simp]
        rcases Nat.lt_or_ge j ((natToDigits xs.length).length + 2) with hlt | hge
        · have htake : (natToDigits xs.length ++ [13, 10] ++ serializeList xs).take j =
              (natToDigits xs.length ++ [13, 10]).take j := by
            rw [List.take_append_of_le_length (by simp [List.length_append]; omega)]
          rw [htake]
          have hfp := findPair_line_take (natToDigits xs.length) hnd j hlt
          simp only [parse_array]
          rw [find_crlf_cons, hfp]
          rfl
        · have htake : (natToDigits xs.length ++ [13, 10] ++ serializeList xs).take j =
              (natToDigits xs.length ++ [13, 10]) ++
                (serializeList xs).take (j - ((natToDigits xs.length).length + 2)) := by
            rw [List.take_append_eq_append_take,
              List.take_of_length_le (by simp [List.length_append]; omega)]
            congr 2
            simp [List.length_append]
          rw [htake]
          have hshape : (natToDigits xs.length ++ [13, 10]) ++
                (serializeList xs).take (j - ((natToDigits xs.length).length + 2)) =
              natToDigits xs.length ++
                (13 :: 10 :: (serializeList xs).take
                  (j - ((natToDigits xs.length).length + 2))) := by
            simp [List.append_assoc]
          rw [hshape]
          simp only [parse_array]
          rw [find_crlf_cons, findPair_append_crlf (natToDigits xs.length) _ hnd]
          simp only [Option.map_some']
          rw [listSlice_one 42 (natToDigits xs.length)
            (13 :: 10 :: (serializeList xs).take (j - ((natToDigits xs.length).length + 2)))]
          have hp64 : parse_i64 (natToDigits xs.length) = some (xs.length : Int) :=
            parse_i64_natToDigits xs.length (by omega)
          simp only [hp64]
          rw [if_neg (by omega), if_neg (by omega)]
          have htonat : (xs.length : Int).toNat = xs.length := by omega
          rw [htonat]
          have hdrop : (42 :: (natToDigits xs.length ++
              (13 :: 10 :: (serializeList xs).take
                (j - ((natToDigits xs.length).length + 2))))).drop
              ((natToDigits xs.length).length + 1 + 2) =
              (serializeList xs).take (j - ((natToDigits xs.length).length + 2)) := by
            have h5 := drop_tagged 42 (natToDigits xs.length ++ [13, 10])
              ((serializeList xs).take (j - ((natToDigits xs.length).length + 2)))
            simp only [List.append_assoc, List.cons_append, List.nil_append,
              List.length_append, List.length_cons, List.length_nil] at h5 ⊢
            have heq2 : (natToDigits xs.length).length + 2 + 1 =
                (natToDigits xs.length).length + 1 + 2 := by omega
            rw [heq2] at h5
            exact h5
          rw [hdrop]
          have hpe := parse_elems_take_incomplete xs hmem_take hwf2.2
            (j - ((natToDigits xs.length).length + 2)) (by omega)
          simp only [hpe]

/-- Parsing any proper prefix of a serialized well-formed frame
reports `incomplete`. -/
theorem parse_take_incomplete (F : RespData) (hwf : wf F = true) (i : Nat)
    (hi : i < (serialize_resp F).length) :
    parse_resp ((serialize_resp F).take i) = .incomplete :=
  parse_take_incomplete_aux (sizeOf F) F le_rfl hwf i hi

/-- C1: Codec round-trip.  For every well-formed frame of the six
variants (nested arrays and bulk strings with embedded CR, LF and NUL
included; well-formed means the realizability constraints of spec §3:
no CR LF pair inside SimpleString or Error text, Integer in the signed
64-bit range, lengths and counts within the signed 64-bit header
range), parsing the serialization yields the frame together with a
consumed count equal to the byte length of the serialization. -/
theorem C1_codec_roundtrip (F : RespData) (hwf : wf F = true) :
    parse_resp (serialize_resp F) = .ok (serialize_resp F).length F := by
  have h := parse_ser_tail F hwf []
  simpa using h

/-- Witness for C1 on a nested array containing a bulk string with
embedded CR, LF and NUL, an integer, a null and a simple string. -/
theorem C1_codec_roundtrip_witness :
    wf (RespData.array [RespData.array [RespData.bulkString [13, 10, 0]],
      RespData.integer (-5), RespData.null,
      RespData.simpleString (strBytes "OK")]) = true ∧
    parse_resp (serialize_resp (RespData.array [RespData.array
      [RespData.bulkString [13, 10, 0]], RespData.integer (-5), RespData.null,
      RespData.simpleString (strBytes "OK")])) =
      .ok (serialize_resp (RespData.array [RespData.array
        [RespData.bulkString [13, 10, 0]], RespData.integer (-5), RespData.null,
        RespData.simpleString (strBytes "OK")])).length
        (RespData.array [RespData.array [RespData.bulkString [13, 10, 0]],
          RespData.integer (-5), RespData.null,
          RespData.simpleString (strBytes "OK")]) := by
  have hwf : wf (RespData.array [RespData.array [RespData.bulkString [13, 10, 0]],
      RespData.integer (-5), RespData.null,
      RespData.simpleString (strBytes "OK")]) = true := by
    simp [wf, wfList, strBytes, findPair]
  exact ⟨hwf, C1_codec_roundtrip _ hwf⟩

/-- C2: Codec incrementality.  For every serialized well-formed frame
and every split index strictly inside it, parsing the prefix returns
`incomplete` (no bytes consumed, no error); parsing the whole buffer
succeeds consuming exactly the frame length; and with any trailing
bytes appended the consumed count still equals the frame length, so
the parser never consumes past the end of the first complete frame. -/
theorem C2_codec_incrementality (F : RespData) (hwf : wf F = true) (i : Nat)
    (hi : i < (serialize_resp F).length) :
    parse_resp ((serialize_resp F).take i) = .incomplete ∧
    parse_resp (serialize_resp F) = .ok (serialize_resp F).length F ∧
    (∀ rest : List Nat, parse_resp (serialize_resp F ++ rest) =
      .ok (serialize_resp F).length F) := by
  refine ⟨parse_take_incomplete F hwf i hi, ?_, fun rest => parse_ser_tail F hwf rest⟩
  have h := parse_ser_tail F hwf []
  simpa using h

/-- Witness for C2 on the bulk string whose payload is a bare CR LF
pair, split one byte before the end of its serialization. -/
theorem C2_codec_incrementality_witness :
    parse_resp ((serialize_resp (RespData.bulkString [13, 10])).take 7) =
      .incomplete := by
  have hwf : wf (RespData.bulkString [13, 10]) = true := by
    simp [wf]
  have hi : 7 < (serialize_resp (RespData.bulkString [13, 10])).length := by
    simp [serialize_resp, natToDigits]
  exact (C2_codec_incrementality (RespData.bulkString [13, 10]) hwf 7 hi).1

/-- C7 evidence: on the input `$-5` CR LF the source reaches the Rust
panic modelled by `crash` (the `len as usize` cast wraps and the
slice `&buffer[5..0]` is invalid); on `*-5` CR LF the
`Vec::with_capacity` call panics; and on `$-8` CR LF the wrapped
arithmetic makes `total_end` huge, so the parser reports `incomplete`
and waits for more input forever.  In no case is a `malformed` error
returned. -/
theorem C7_negative_length_behavior :
    parse_resp (strBytes "$-5\r\n") = .crash ∧
    parse_resp (strBytes "*-5\r\n") = .crash ∧
    parse_resp (strBytes "$-8\r\n") = .incomplete := by
  have hb1 : strBytes "$-5\r\n" = [36, 45, 53, 13, 10] := by decide
  have hb2 : strBytes "*-5\r\n" = [42, 45, 53, 13, 10] := by decide
  have hb3 : strBytes "$-8\r\n" = [36, 45, 56, 13, 10] := by decide
  have hfp5 : findPair [45, 53, 13, 10] = some 2 := by decide
  have hfp8 : findPair [45, 56, 13, 10] = some 2 := by decide
  have hp5 : parse_i64 [45, 53] = some (-5) := by decide
  have hp8 : parse_i64 [45, 56] = some (-8) := by decide
  refine ⟨?_, ?_, ?_⟩
  · rw [hb1]
    simp only [parse_resp]
    norm_num
    unfold parse_bulk_string
    rw [find_crlf_cons, hfp5]
    simp only [Option.map_some']
    have hsl : listSlice [36, 45, 53, 13, 10] 1 3 = [45, 53] := by decide
    rw [hsl]
    simp only [hp5]
    rw [if_neg (by omega)]
    have hu : usizeOfI64 (-5) = 2 ^ 64 - 5 := by decide
    rw [hu]
    norm_num
  · rw [hb2]
    simp only [parse_resp]
    norm_num
    simp only [parse_array]
    rw [find_crlf_cons, hfp5]
    simp only [Option.map_some']
    have hsl : listSlice [42, 45, 53, 13, 10] 1 3 = [45, 53] := by decide
    rw [hsl]
    simp only [hp5]
    rw [if_neg (by omega), if_pos (by omega)]
  · rw [hb3]
    simp only [parse_resp]
    norm_num
    unfold parse_bulk_string
    rw [find_crlf_cons, hfp8]
    simp only [Option.map_some']
    have hsl : listSlice [36, 45, 56, 13, 10] 1 3 = [45, 56] := by decide
    rw [hsl]
    simp only [hp8]
    rw [if_neg (by omega)]
    have hu : usizeOfI64 (-8) = 2 ^ 64 - 8 := by decide
    rw [hu]
    norm_num

/-- The `lpush` loop (reversed iteration with `push_front`) prepends
the values as a block, preserving argument order. -/
theorem lpushLoop_eq (values l : List (List Nat)) :
    lpushLoop values l = values ++ l := by
  unfold lpushLoop
  induction values with
  | nil => simp
  | cons v vs ih =>
    simp only [List.reverse_cons, List.foldl_append, List.foldl_cons, List.foldl_nil]
    rw [ih]
    simp

/-- The `rpush` loop appends the values in argument order. -/
theorem rpushLoop_eq (values l : List (List Nat)) :
    rpushLoop values l = l ++ values := by
  unfold rpushLoop
  induction values generalizing l with
  | nil => simp
  | cons v vs ih =>
    simp only [List.foldl_cons]
    rw [ih]
    simp

/-- C3 counterexample: LPUSH of `a b c` on an absent key stores the
list `[a, b, c]` (the values as a block in argument order), not the
claimed `[c, b, a]`. -/
theorem C3_lpush_order_counterexample :
    (RedisStore.lpush Store.empty 0 (strBytes "k")
      [strBytes "a", strBytes "b", strBytes "c"]).2 (strBytes "k") =
      some ⟨RedisValueType.list [strBytes "a", strBytes "b", strBytes "c"],
        Option.none⟩ ∧
    (RedisStore.lpush Store.empty 0 (strBytes "k")
      [strBytes "a", strBytes "b", strBytes "c"]).2 (strBytes "k") ≠
      some ⟨RedisValueType.list [strBytes "c", strBytes "b", strBytes "a"],
        Option.none⟩ := by
  constructor <;> decide

/-- C3 (amended): LPUSH on an absent key stores the pushed values as a
block preserving argument order (`LPUSH a b c` yields `[a, b, c]`, the
source iterates the values reversed and pushes each at the front);
RPUSH yields `[a, b, c]` as claimed; consequently RPUSH of `vs` then
LPUSH of `ws` stores `ws ++ vs` with length `ws.length + vs.length`,
and each push replies the new length. -/
theorem C3_push_order_amended (now : Nat) (k : List Nat)
    (vs ws : List (List Nat)) :
    (RedisStore.lpush Store.empty now k vs).1 = vs.length ∧
    (RedisStore.lpush Store.empty now k vs).2 k =
      some ⟨RedisValueType.list vs, Option.none⟩ ∧
    (RedisStore.rpush Store.empty now k vs).1 = vs.length ∧
    (RedisStore.rpush Store.empty now k vs).2 k =
      some ⟨RedisValueType.list vs, Option.none⟩ ∧
    (RedisStore.lpush ((RedisStore.rpush Store.empty now k vs).2) now k ws).1 =
      ws.length + vs.length ∧
    (RedisStore.lpush ((RedisStore.rpush Store.empty now k vs).2) now k ws).2 k =
      some ⟨RedisValueType.list (ws ++ vs), Option.none⟩ := by
  have hempty : RedisStore.get Store.empty now k = (Option.none, Store.empty) := by
    simp [RedisStore.get, Store.empty]
  have hl : RedisStore.lpush Store.empty now k vs =
      (vs.length, Store.insert Store.empty k ⟨RedisValueType.list vs, Option.none⟩) := by
    simp [RedisStore.lpush, hempty, lpushLoop_eq, RedisStore.set_with_options]
  have hr : RedisStore.rpush Store.empty now k vs =
      (vs.length, Store.insert Store.empty k ⟨RedisValueType.list vs, Option.none⟩) := by
    simp [RedisStore.rpush, hempty, rpushLoop_eq, RedisStore.set_with_options]
  have hins : Store.insert Store.empty k ⟨RedisValueType.list vs, Option.none⟩ k =
      some ⟨RedisValueType.list vs, Option.none⟩ := by
    simp [Store.insert]
  have hget2 : RedisStore.get (Store.insert Store.empty k
      ⟨RedisValueType.list vs, Option.none⟩) now k =
      (some ⟨RedisValueType.list vs, Option.none⟩,
        Store.insert Store.empty k ⟨RedisValueType.list vs, Option.none⟩) := by
    simp [RedisStore.get, hins]
  have hl2 : RedisStore.lpush (Store.insert Store.empty k
      ⟨RedisValueType.list vs, Option.none⟩) now k ws =
      (ws.length + vs.length, Store.insert (Store.insert Store.empty k
        ⟨RedisValueType.list vs, Option.none⟩) k
        ⟨RedisValueType.list (ws ++ vs), Option.none⟩) := by
    simp [RedisStore.lpush, hget2, lpushLoop_eq, RedisStore.set_with_options]
  refine ⟨by rw [hl], by rw [hl]; exact hins, by rw [hr], by rw [hr]; exact hins,
    ?_, ?_⟩
  · rw [hr]
    simp only [hl2]
  · rw [hr]
    simp only [hl2]
    simp [Store.insert]

/-- C5 evidence: LPUSH and RPUSH on a key holding a string value
replace the stored value with a fresh one-element list and reply its
length 1, instead of failing with a WRONGTYPE error and leaving the
string in place. -/
theorem C5_wrongtype_replaces_value :
    (RedisStore.lpush (Store.insert Store.empty (strBytes "k")
      ⟨RedisValueType.string (strBytes "v"), Option.none⟩) 0 (strBytes "k")
      [strBytes "a"]).1 = 1 ∧
    (RedisStore.lpush (Store.insert Store.empty (strBytes "k")
      ⟨RedisValueType.string (strBytes "v"), Option.none⟩) 0 (strBytes "k")
      [strBytes "a"]).2 (strBytes "k") =
      some ⟨RedisValueType.list [strBytes "a"], Option.none⟩ ∧
    (RedisStore.rpush (Store.insert Store.empty (strBytes "k")
      ⟨RedisValueType.integer 7, Option.none⟩) 0 (strBytes "k")
      [strBytes "a"]).1 = 1 ∧
    (RedisStore.rpush (Store.insert Store.empty (strBytes "k")
      ⟨RedisValueType.integer 7, Option.none⟩) 0 (strBytes "k")
      [strBytes "a"]).2 (strBytes "k") =
      some ⟨RedisValueType.list [strBytes "a"], Option.none⟩ := by
  refine ⟨by decide, by decide, by decide, by decide⟩

/-- C6 evidence: INCR on a key holding the maximal signed 64-bit
counter replies the wrapped-around minimal value and stores it (the
release-build behavior of the unchecked `n + 1`; a debug build panics
at the same input), instead of returning a typed error and leaving
the value unchanged.  DECR at the minimal value wraps likewise. -/
theorem C6_overflow_wraps :
    (RedisStore.incr (Store.insert Store.empty (strBytes "k")
      ⟨RedisValueType.integer (2 ^ 63 - 1), Option.none⟩) 0 (strBytes "k")).1 =
      .ok (-(2 ^ 63)) ∧
    (RedisStore.incr (Store.insert Store.empty (strBytes "k")
      ⟨RedisValueType.integer (2 ^ 63 - 1), Option.none⟩) 0 (strBytes "k")).2
      (strBytes "k") = some ⟨RedisValueType.integer (-(2 ^ 63)), Option.none⟩ ∧
    (RedisStore.decr (Store.insert Store.empty (strBytes "k")
      ⟨RedisValueType.integer (-(2 ^ 63)), Option.none⟩) 0 (strBytes "k")).1 =
      .ok (2 ^ 63 - 1) := by
  refine ⟨by rfl, by decide, by rfl⟩

/-- C8 counterexample: `SET k v EXAT 99` is answered with `OK` and the
key is stored with no expiry — the EXAT modifier is silently dropped
rather than honored or rejected with a syntax error. -/
theorem C8_set_modifier_counterexample :
    (handle_set [RespData.bulkString (strBytes "SET"),
      RespData.bulkString (strBytes "k"), RespData.bulkString (strBytes "v"),
      RespData.bulkString (strBytes "EXAT"), RespData.bulkString (strBytes "99")]
      Store.empty 0).1 = RespData.simpleString (strBytes "OK") ∧
    (handle_set [RespData.bulkString (strBytes "SET"),
      RespData.bulkString (strBytes "k"), RespData.bulkString (strBytes "v"),
      RespData.bulkString (strBytes "EXAT"), RespData.bulkString (strBytes "99")]
      Store.empty 0).2 (strBytes "k") =
      some ⟨RedisValueType.string (strBytes "v"), Option.none⟩ := by
  have hloop : setOptionsLoop [RespData.bulkString (strBytes "SET"),
      RespData.bulkString (strBytes "k"), RespData.bulkString (strBytes "v"),
      RespData.bulkString (strBytes "EXAT"), RespData.bulkString (strBytes "99")]
      3 .none = .none := by
    rw [setOptionsLoop]
    norm_num
    rw [show upperAscii (strBytes "EXAT") = strBytes "EXAT" from by decide]
    rw [if_neg (by decide), if_neg (by decide)]
    rw [setOptionsLoop]
    norm_num
  constructor
  · simp [handle_set, hloop]
  · simp [handle_set, hloop, RedisStore.set_with_options, Store.insert]

/-- Whatever TTL option is in effect, `set_with_options` maps the key
to the given value with some expiry field. -/
theorem set_with_options_lookup (st : Store) (now : Nat) (k : List Nat)
    (val : RedisValueType) (opts : SetOptions) :
    ∃ exp : Option Nat,
      RedisStore.set_with_options st now k val opts k = some ⟨val, exp⟩ := by
  cases opts with
  | none =>
    exact ⟨Option.none, by simp [RedisStore.set_with_options, Store.insert]⟩
  | EX seconds =>
    exact ⟨some ((now + seconds * 1000) % 2 ^ 64),
      by simp [RedisStore.set_with_options, Store.insert]⟩
  | PX millis =>
    exact ⟨some ((now + millis) % 2 ^ 64),
      by simp [RedisStore.set_with_options, Store.insert]⟩
  | EXAT timestamp =>
    exact ⟨some ((timestamp * 1000) % 2 ^ 64),
      by simp [RedisStore.set_with_options, Store.insert]⟩
  | PXAT timestamp =>
    exact ⟨some timestamp, by simp [RedisStore.set_with_options, Store.insert]⟩

/-- C8 (amended): SET never rejects modifiers.  For every SET command
with bulk-string key and value and ANY combination of trailing
modifier tokens, the reply is `OK` and the key is stored with the
given value — no modifier combination ever produces a syntax error.
Only `EX` and `PX` are recognized: a single modifier pair whose token
upper-cases to neither `EX` nor `PX` (`EXAT` and `PXAT` included) is
silently ignored and the value is stored with no expiry; a recognized
`EX n` pair stores the u64-wrapped absolute deadline
`(now + n * 1000) % 2 ^ 64` and `PX n` stores `(now + n) % 2 ^ 64`;
and when an `EX` pair is followed by a `PX` pair (or the other way
round), the later pair wins. -/
theorem C8_set_modifiers_amended (st : Store) (now : Nat) (k v m a : List Nat)
    (hex : upperAscii m ≠ strBytes "EX") (hpx : upperAscii m ≠ strBytes "PX") :
    (∀ mods : List RespData,
      (handle_set (RespData.bulkString (strBytes "SET") :: RespData.bulkString k ::
        RespData.bulkString v :: mods) st now).1 =
        RespData.simpleString (strBytes "OK") ∧
      ∃ exp : Option Nat,
        (handle_set (RespData.bulkString (strBytes "SET") :: RespData.bulkString k ::
          RespData.bulkString v :: mods) st now).2 k =
          some ⟨RedisValueType.string v, exp⟩) ∧
    handle_set [RespData.bulkString (strBytes "SET"), RespData.bulkString k,
      RespData.bulkString v, RespData.bulkString m, RespData.bulkString a]
      st now =
      (RespData.simpleString (strBytes "OK"),
        Store.insert st k ⟨RedisValueType.string v, Option.none⟩) ∧
    (∀ n : Nat, parse_u64 a = some n →
      handle_set [RespData.bulkString (strBytes "SET"), RespData.bulkString k,
        RespData.bulkString v, RespData.bulkString (strBytes "EX"),
        RespData.bulkString a] st now =
        (RespData.simpleString (strBytes "OK"),
          Store.insert st k ⟨RedisValueType.string v,
            some ((now + n * 1000) % 2 ^ 64)⟩)) ∧
    (∀ n : Nat, parse_u64 a = some n →
      handle_set [RespData.bulkString (strBytes "SET"), RespData.bulkString k,
        RespData.bulkString v, RespData.bulkString (strBytes "PX"),
        RespData.bulkString a] st now =
        (RespData.simpleString (strBytes "OK"),
          Store.insert st k ⟨RedisValueType.string v,
            some ((now + n) % 2 ^ 64)⟩)) ∧
    (∀ (a2 : List Nat) (n n2 : Nat), parse_u64 a = some n →
      parse_u64 a2 = some n2 →
      handle_set [RespData.bulkString (strBytes "SET"), RespData.bulkString k,
        RespData.bulkString v, RespData.bulkString (strBytes "EX"),
        RespData.bulkString a, RespData.bulkString (strBytes "PX"),
        RespData.bulkString a2] st now =
        (RespData.simpleString (strBytes "OK"),
          Store.insert st k ⟨RedisValueType.string v,
            some ((now + n2) % 2 ^ 64)⟩)) ∧
    (∀ (a2 : List Nat) (n n2 : Nat), parse_u64 a = some n →
      parse_u64 a2 = some n2 →
      handle_set [RespData.bulkString (strBytes "SET"), RespData.bulkString k,
        RespData.bulkString v, RespData.bulkString (strBytes "PX"),
        RespData.bulkString a, RespData.bulkString (strBytes "EX"),
        RespData.bulkString a2] st now =
        (RespData.simpleString (strBytes "OK"),
          Store.insert st k ⟨RedisValueType.string v,
            some ((now + n2 * 1000) % 2 ^ 64)⟩)) := by
  have hupEX : upperAscii (strBytes "EX") = strBytes "EX" := by decide
  have hupPX : upperAscii (strBytes "PX") = strBytes "PX" := by decide
  have hnePXEX : upperAscii (strBytes "PX") ≠ strBytes "EX" := by decide
  refine ⟨?_, ?_, ?_, ?_, ?_, ?_⟩
  · intro mods
    constructor
    · simp only [handle_set]
      rw [if_neg (by simp [List.length_cons])]
      rfl
    · simp only [handle_set]
      rw [if_neg (by simp [List.length_cons])]
      exact set_with_options_lookup st now k (RedisValueType.string v) _
  · have hloop : setOptionsLoop [RespData.bulkString (strBytes "SET"),
        RespData.bulkString k, RespData.bulkString v, RespData.bulkString m,
        RespData.bulkString a] 3 .none = .none := by
      rw [setOptionsLoop]
      norm_num
      rw [if_neg hex, if_neg hpx]
      rw [setOptionsLoop]
      norm_num
    simp [handle_set, hloop, RedisStore.set_with_options]
  · intro n hn
    have hloop : setOptionsLoop [RespData.bulkString (strBytes "SET"),
        RespData.bulkString k, RespData.bulkString v,
        RespData.bulkString (strBytes "EX"), RespData.bulkString a] 3 .none =
        .EX n := by
      rw [setOptionsLoop]
      norm_num
      rw [hupEX, if_pos rfl]
      rw [hn]
      rw [setOptionsLoop]
      norm_num
    simp [handle_set, hloop, RedisStore.set_with_options]
  · intro n hn
    have hloop : setOptionsLoop [RespData.bulkString (strBytes "SET"),
        RespData.bulkString k, RespData.bulkString v,
        RespData.bulkString (strBytes "PX"), RespData.bulkString a] 3 .none =
        .PX n := by
      rw [setOptionsLoop]
      norm_num
      rw [if_neg hnePXEX, hupPX, if_pos rfl]
      rw [hn]
      rw [setOptionsLoop]
      norm_num
    simp [handle_set, hloop, RedisStore.set_with_options]
  · intro a2 n n2 hn hn2
    have hloop : setOptionsLoop [RespData.bulkString (strBytes "SET"),
        RespData.bulkString k, RespData.bulkString v,
        RespData.bulkString (strBytes "EX"), RespData.bulkString a,
        RespData.bulkString (strBytes "PX"), RespData.bulkString a2] 3 .none =
        .PX n2 := by
      rw [setOptionsLoop]
      norm_num
      rw [hupEX, if_pos rfl]
      rw [hn]
      rw [setOptionsLoop]
      norm_num
      rw [if_neg hnePXEX, hupPX, if_pos rfl]
      rw [hn2]
      rw [setOptionsLoop]
      norm_num
    simp [handle_set, hloop, RedisStore.set_with_options]
  · intro a2 n n2 hn hn2
    have hloop : setOptionsLoop [RespData.bulkString (strBytes "SET"),
        RespData.bulkString k, RespData.bulkString v,
        RespData.bulkString (strBytes "PX"), RespData.bulkString a,
        RespData.bulkString (strBytes "EX"), RespData.bulkString a2] 3 .none =
        .EX n2 := by
      rw [setOptionsLoop]
      norm_num
      rw [if_neg hnePXEX, hupPX, if_pos rfl]
      rw [hn]
      rw [setOptionsLoop]
      norm_num
      rw [hupEX, if_pos rfl]
      rw [hn2]
      rw [setOptionsLoop]
      norm_num
    simp [handle_set, hloop, RedisStore.set_with_options]

/-- Witness for the amended C8: the unrecognized modifier `EXAT` is
ignored and SET succeeds with no expiry. -/
theorem C8_set_modifiers_amended_witness :
    handle_set [RespData.bulkString (strBytes "SET"),
      RespData.bulkString (strBytes "k"), RespData.bulkString (strBytes "v"),
      RespData.bulkString (strBytes "EXAT"), RespData.bulkString (strBytes "99")]
      Store.empty 0 =
      (RespData.simpleString (strBytes "OK"),
        Store.insert Store.empty (strBytes "k")
          ⟨RedisValueType.string (strBytes "v"), Option.none⟩) :=
  (C8_set_modifiers_amended Store.empty 0 (strBytes "k") (strBytes "v")
    (strBytes "EXAT") (strBytes "99") (by decide) (by decide)).2.1


/-- C9 evidence.  First conjunct: `RedisStore::incr` is exactly the
sequential composition of its two separately atomic steps, the
`self.get` call (`incrRead`) and the branch-plus-`set_with_options`
step (`incrWrite`) — no lock spans the two.  Remaining conjuncts: under
the interleaving in which two clients both run their read step against
the empty store before either runs its write step, both replies are 1
and the final stored counter is 1, so with `N = 2` clients and `M = 1`
increments the final value is not `N * M = 2` and the replies are not
distinct. -/
theorem C9_incr_race_lost_update :
    (∀ (st : Store) (now : Nat) (key : List Nat),
      RedisStore.incr st now key =
        incrWrite (incrRead st now key).2 now key (incrRead st now key).1) ∧
    (incrWrite Store.empty 0 (strBytes "k")
      (incrRead Store.empty 0 (strBytes "k")).1).1 = .ok 1 ∧
    (incrWrite (incrWrite Store.empty 0 (strBytes "k")
        (incrRead Store.empty 0 (strBytes "k")).1).2 0 (strBytes "k")
      (incrRead Store.empty 0 (strBytes "k")).1).1 = .ok 1 ∧
    (incrWrite (incrWrite Store.empty 0 (strBytes "k")
        (incrRead Store.empty 0 (strBytes "k")).1).2 0 (strBytes "k")
      (incrRead Store.empty 0 (strBytes "k")).1).2 (strBytes "k") =
      some ⟨RedisValueType.integer 1, Option.none⟩ ∧
    (1 : Int) ≠ 2 := by
  refine ⟨?_, by rfl, by rfl, by decide, by decide⟩
  intro st now key
  simp only [RedisStore.incr, incrRead, incrWrite]
  rcases RedisStore.get st now key with ⟨obs, st1⟩
  cases obs with
  | none => rfl
  | some value =>
    cases value with
    | mk data expiry =>
      cases data with
      | string s => rfl
      | list l => rfl
      | integer n => rfl

/-- C10: every successful read-modify-write on an existing, live
(unexpired) key — INCR, DECR, LPUSH, RPUSH — re-inserts the value via
`set_with_options .. SetOptions::None`, so the stored entry ends up
with `expiry = None`: a key that had a TTL loses it as a side effect
of the operation. -/
theorem C10_rmw_drops_ttl (st : Store) (now : Nat) (k : List Nat) (e : Nat)
    (hlive : now < e) :
    (∀ n : Int, st k = some ⟨RedisValueType.integer n, some e⟩ →
      (RedisStore.incr st now k).2 k =
        some ⟨RedisValueType.integer (wrap64 (n + 1)), Option.none⟩) ∧
    (∀ n : Int, st k = some ⟨RedisValueType.integer n, some e⟩ →
      (RedisStore.decr st now k).2 k =
        some ⟨RedisValueType.integer (wrap64 (n - 1)), Option.none⟩) ∧
    (∀ (l : List (List Nat)) (vs : List (List Nat)),
      st k = some ⟨RedisValueType.list l, some e⟩ →
      (RedisStore.lpush st now k vs).2 k =
        some ⟨RedisValueType.list (vs ++ l), Option.none⟩) ∧
    (∀ (l : List (List Nat)) (vs : List (List Nat)),
      st k = some ⟨RedisValueType.list l, some e⟩ →
      (RedisStore.rpush st now k vs).2 k =
        some ⟨RedisValueType.list (l ++ vs), Option.none⟩) := by
  have hne : ¬(now ≥ e) := by omega
  refine ⟨?_, ?_, ?_, ?_⟩
  · intro n h
    have hg : RedisStore.get st now k = (some ⟨RedisValueType.integer n, some e⟩, st) := by
      simp [RedisStore.get, h, hne]
    simp [RedisStore.incr, hg, RedisStore.set_with_options, Store.insert]
  · intro n h
    have hg : RedisStore.get st now k = (some ⟨RedisValueType.integer n, some e⟩, st) := by
      simp [RedisStore.get, h, hne]
    simp [RedisStore.decr, hg, RedisStore.set_with_options, Store.insert]
  · intro l vs h
    have hg : RedisStore.get st now k = (some ⟨RedisValueType.list l, some e⟩, st) := by
      simp [RedisStore.get, h, hne]
    simp [RedisStore.lpush, hg, lpushLoop_eq, RedisStore.set_with_options, Store.insert]
  · intro l vs h
    have hg : RedisStore.get st now k = (some ⟨RedisValueType.list l, some e⟩, st) := by
      simp [RedisStore.get, h, hne]
    simp [RedisStore.rpush, hg, rpushLoop_eq, RedisStore.set_with_options, Store.insert]

/-- Witness for C10: a counter with a live TTL (deadline 100, clock at
10) loses its TTL when INCR re-inserts it. -/
theorem C10_rmw_drops_ttl_witness :
    (RedisStore.incr (Store.insert Store.empty (strBytes "k")
      ⟨RedisValueType.integer 5, some 100⟩) 10 (strBytes "k")).2 (strBytes "k") =
      some ⟨RedisValueType.integer (wrap64 (5 + 1)), Option.none⟩ :=
  (C10_rmw_drops_ttl (Store.insert Store.empty (strBytes "k")
    ⟨RedisValueType.integer 5, some 100⟩) 10 (strBytes "k") 100 (by omega)).1
    5 (by decide)
